import Mathlib

/-!
Shallow embedding of `src/fitness_tracker/fitness_tracker.py` and proofs of
the frozen claims about it.  The filesystem layout of the application
(`users.json`, the per-user directories with `exercises.json` /
`workouts.json`, the archive folders and the backup folders) is modelled as
an explicit state record; every operation is a pure function on that state.
The nondeterministic inputs of the original (current time, the randomly
generated protection code, interactive text input) appear as explicit
parameters.
-/

deriving instance DecidableEq for Except

namespace FT

/-- The whitespace characters split on by Python `str.split()` (ASCII). -/
def isWs (c : Char) : Bool :=
  c == ' ' || c == '\t' || c == '\n' || c == '\r' || c == '\x0b' || c == '\x0c'

/-- Python `str.lower()` on a single character (ASCII range, as exercised by
the application). -/
def lowerChar (c : Char) : Char :=
  if 'A' ≤ c ∧ c ≤ 'Z' then Char.ofNat (c.toNat + 32) else c

/-- Python `str.split()` (no separator): split on runs of whitespace,
dropping empty fields. -/
def splitWs : List Char → List (List Char)
  | [] => []
  | [c] => if isWs c then [] else [[c]]
  | c :: d :: cs =>
    if isWs c then splitWs (d :: cs)
    else if isWs d then [c] :: splitWs (d :: cs)
    else
      match splitWs (d :: cs) with
      | w :: ws => (c :: w) :: ws
      | [] => [[c]]

/-- Python `" ".join(words)`. -/
def joinWords : List (List Char) → List Char
  | [] => []
  | [w] => w
  | w :: ws => w ++ ' ' :: joinWords ws

/-- `normalize_exercise_name`: `" ".join(name.lower().split())`. -/
def normalize_exercise_name (s : String) : String :=
  ⟨joinWords (splitWs (s.data.map lowerChar))⟩

example : normalize_exercise_name "  Bench   PRESS " = "bench press" := by decide

example : normalize_exercise_name "bench press" = "bench press" := by decide

/-- Whether a character list starts with a whitespace character. -/
def headIsWs : List Char → Bool
  | [] => false
  | c :: _ => isWs c

/-- Whether a character list ends with a whitespace character. -/
def lastIsWs : List Char → Bool
  | [] => false
  | [c] => isWs c
  | _ :: c :: cs => lastIsWs (c :: cs)

/-- Whether a character list contains two consecutive spaces. -/
def hasDoubleSpace : List Char → Bool
  | a :: b :: rest => (a == ' ' && b == ' ') || hasDoubleSpace (b :: rest)
  | _ => false

/-! ## Data model

Records for the JSON objects the application stores.  `protection_code` is
optional because `restore_user` writes user records without that key. -/

/-- One entry of `users.json`. -/
structure User where
  id : Nat
  name : String
  created_at : String
  protection_code : Option String
deriving Repr, DecidableEq

/-- One entry of a per-user `exercises.json`. -/
structure Exercise where
  name : String
  muscle_group : String
  created_at : String
deriving Repr, DecidableEq

/-- One entry of a per-user `workouts.json`.  `weight` (a Python float fed
only by decimal literals here) is modelled as a rational. -/
structure Workout where
  date : String
  exercise : String
  weight : Rat
  reps : Int
deriving Repr, DecidableEq

/-- The contents of one per-user data directory. -/
structure UserData where
  exercises : List Exercise
  workouts : List Workout
deriving Repr, DecidableEq

def emptyUserData : UserData := ⟨[], []⟩

/-- One timestamped folder under `data/backups`. -/
structure BackupFolder where
  name : String
  usersFile : List User
  dirs : List (String × UserData)
deriving Repr, DecidableEq

/-- The whole on-disk state of the application: the registry file, the
per-user directories, the archive folders and the backup folders.  The
directory maps are association lists keyed by directory name; a user whose
directory (or whose files within it) is absent/unreadable simply has no
entry in `userDirs`. -/
structure FSState where
  users : List User
  userDirs : List (String × UserData)
  archives : List (String × UserData)
  backups : List BackupFolder
deriving Repr, DecidableEq

/-- State right after `init_data_storage` on a fresh installation. -/
def initState : FSState := ⟨[], [], [], []⟩

/-- Overwriting (or creating) a directory entry, as Python dict assignment /
`copytree` over a fresh path: replaces the entry in place when the key is
present, appends it otherwise. -/
def dictSet (k : String) (v : UserData) (d : List (String × UserData)) :
    List (String × UserData) :=
  if d.any (fun p => p.1 == k) then d.map (fun p => if p.1 == k then (k, v) else p)
  else d ++ [(k, v)]

/-! ## Date / number coercion

`pd.to_datetime` (permissive, mixed formats) is modelled for the two shapes
the data uses: ISO `YYYY-MM-DD` (what `save_workout` writes) and US-style
`MM/DD/YYYY`.  A parsed date is encoded as `y*10000 + m*100 + d`, so the
numeric order is the calendar order. -/

def digitVal (c : Char) : Nat := c.toNat - 48

def digitsVal : List Char → Option Nat
  | [] => none
  | cs => if cs.all Char.isDigit then
            some (cs.foldl (fun a c => a * 10 + digitVal c) 0)
          else none

def parseDate (s : String) : Option Nat :=
  match s.data with
  | [y1, y2, y3, y4, '-', m1, m2, '-', d1, d2] =>
    if [y1, y2, y3, y4, m1, m2, d1, d2].all Char.isDigit then
      let y := digitVal y1 * 1000 + digitVal y2 * 100 + digitVal y3 * 10 + digitVal y4
      let m := digitVal m1 * 10 + digitVal m2
      let d := digitVal d1 * 10 + digitVal d2
      if 1 ≤ m && m ≤ 12 && 1 ≤ d && d ≤ 31 then some (y * 10000 + m * 100 + d) else none
    else none
  | [m1, m2, '/', d1, d2, '/', y1, y2, y3, y4] =>
    if [y1, y2, y3, y4, m1, m2, d1, d2].all Char.isDigit then
      let y := digitVal y1 * 1000 + digitVal y2 * 100 + digitVal y3 * 10 + digitVal y4
      let m := digitVal m1 * 10 + digitVal m2
      let d := digitVal d1 * 10 + digitVal d2
      if 1 ≤ m && m ≤ 12 && 1 ≤ d && d ≤ 31 then some (y * 10000 + m * 100 + d) else none
    else none
  | _ => none

def pad2 (n : Nat) : String := if n < 10 then "0" ++ toString n else toString n

/-- `.strftime('%Y-%m-%d')` on a parsed date. -/
def formatDate (n : Nat) : String :=
  toString (n / 10000) ++ "-" ++ pad2 (n / 100 % 100) ++ "-" ++ pad2 (n % 100)

/-- Python `float(s)` on the decimal strings occurring in CSV data. -/
def parseFloatPos (l : List Char) : Option Rat :=
  let intPart := l.takeWhile (fun c => c != '.')
  match l.dropWhile (fun c => c != '.') with
  | [] => (digitsVal intPart).map (fun n => mkRat n 1)
  | '.' :: frac =>
    match digitsVal intPart, digitsVal frac with
    | some a, some b => some (mkRat (a * 10 ^ frac.length + b) (10 ^ frac.length))
    | _, _ => none
  | _ => none

def parseFloat (s : String) : Option Rat :=
  match s.data with
  | '-' :: rest => (parseFloatPos rest).map Neg.neg
  | l => parseFloatPos l

/-- Python `int(s)`. -/
def parseInt (s : String) : Option Int :=
  match s.data with
  | '-' :: rest => (digitsVal rest).map (fun n => -(n : Int))
  | l => (digitsVal l).map (fun n => (n : Int))

example : parseDate "2024-05-01" = some 20240501 := by decide
example : parseDate "01/31/2024" = some 20240131 := by decide
example : parseDate "bad" = none := by decide
example : parseFloat "60.5" = some (mkRat 121 2) := by decide
example : parseFloat "-60.5" = some (-(mkRat 121 2)) := by decide
example : parseFloat "60" = some (mkRat 60 1) := by decide
example : parseInt "-7" = some (-7) := by decide
example : parseInt "x" = none := by decide

/-! ## Per-user store operations -/

/-- The `for i, ex in enumerate(exercises): ... break / else: append` body of
`save_exercise`: replace the first entry whose normalized name matches,
returning `none` when no entry matches. -/
def replaceFirstExercise (nn mg : String) : List Exercise → Option (List Exercise)
  | [] => none
  | e :: es =>
    if normalize_exercise_name e.name == nn then
      some ({ name := nn, muscle_group := mg, created_at := e.created_at } :: es)
    else (replaceFirstExercise nn mg es).map (fun es' => e :: es')

/-- `save_exercise(name, muscle_group, username)` acting on the user's
exercises file; `now` is `datetime.now().isoformat()`. -/
def save_exercise (name muscle_group now : String) (exercises : List Exercise) :
    List Exercise :=
  let normalized_name := normalize_exercise_name name
  match replaceFirstExercise normalized_name muscle_group exercises with
  | some exercises' => exercises'
  | none => exercises ++ [{ name := normalized_name, muscle_group := muscle_group,
                            created_at := now }]

/-- `save_workout(exercise, weight, reps, username)` acting on the user's
workouts file; `today` is `datetime.now().strftime('%Y-%m-%d')`. -/
def save_workout (exercise : String) (weight : Rat) (reps : Int) (today : String)
    (workouts : List Workout) : List Workout :=
  workouts ++ [{ date := today, exercise := exercise, weight := weight, reps := reps }]

/-- `pd.to_datetime(df['date'], format='mixed')` applied to every stored row:
pairs each workout with its parsed date, raising (as `Except.error`) on the
first row whose date does not parse. -/
def parseAllDates : List Workout → Except String (List (Workout × Nat))
  | [] => .ok []
  | w :: ws =>
    match parseDate w.date with
    | none => .error ("could not parse date " ++ w.date)
    | some d =>
      match parseAllDates ws with
      | .error e => .error e
      | .ok rest => .ok ((w, d) :: rest)

/-- `iloc[0]` of `sort_values('date', ascending=False)` applied stably: the
entry whose date is maximal, the earliest-stored one among equal dates. -/
def pickLatest : List (Workout × Nat) → Option (Workout × Nat)
  | [] => none
  | p :: ps =>
    match pickLatest ps with
    | none => some p
    | some q => if p.2 < q.2 then some q else some p

/-- `get_last_workout(exercise, username)` on the user's workouts file.  A
date-parsing failure inside pandas propagates as an exception
(`Except.error`); otherwise the result is `none` or the selected row. -/
def get_last_workout (exercise : String) (workouts : List Workout) :
    Except String (Option Workout) :=
  if workouts = [] then .ok none
  else
    match parseAllDates workouts with
    | .error e => .error e
    | .ok rows =>
      match pickLatest (rows.filter (fun p => p.1.exercise == exercise)) with
      | none => .ok none
      | some p => .ok (some p.1)

/-- `delete_exercise(name, username)`: removes by exact stored name. -/
def delete_exercise (name : String) (exercises : List Exercise) : List Exercise :=
  exercises.filter (fun ex => ex.name != name)

/-! ## CSV import -/

/-- One row of a CSV that passed the required-columns check; every cell is
kept as its textual content. -/
structure CSVRow where
  date : String
  exercise : String
  weight : String
  reps : String
deriving Repr, DecidableEq

/-- `df['exercise'] = df['exercise'].apply(normalize_exercise_name)`. -/
def normRow (r : CSVRow) : CSVRow :=
  { r with exercise := normalize_exercise_name r.exercise }

/-- `df['exercise'].unique()`: first-occurrence order, duplicates dropped. -/
def uniqueFirst : List String → List String
  | [] => []
  | s :: ss => s :: (uniqueFirst ss).filter (fun t => t != s)

/-- The workout-conversion loop of `import_from_csv`: coerce every row
(`pd.to_datetime`, `float`, `int` in that order), failing on the first row
that cannot be coerced. -/
def convertRows : List CSVRow → Except String (List Workout)
  | [] => .ok []
  | r :: rs =>
    match parseDate r.date with
    | none => .error ("could not parse date " ++ r.date)
    | some d =>
      match parseFloat r.weight with
      | none => .error ("could not convert string to float: " ++ r.weight)
      | some wt =>
        match parseInt r.reps with
        | none => .error ("invalid literal for int: " ++ r.reps)
        | some rp =>
          match convertRows rs with
          | .error e => .error e
          | .ok rest =>
            .ok ({ date := formatDate d, exercise := r.exercise,
                   weight := wt, reps := rp } :: rest)

/-- A CSV row whose date, weight, or reps cell cannot be coerced by
the import loop. -/
def badRow (r : CSVRow) : Bool :=
  (parseDate r.date).isNone || (parseFloat r.weight).isNone || (parseInt r.reps).isNone

/-- `import_from_csv(file, username)` acting on the user's two files.
Returns (exercises file, workouts file, success flag, message).  New
exercise names are written to the exercises file before the workout rows
are coerced, so a coercion failure leaves the already-written exercises
behind. -/
def import_from_csv (rows : List CSVRow) (now : String)
    (exercises : List Exercise) (workouts : List Workout) :
    List Exercise × List Workout × Bool × String :=
  let rows := rows.map normRow
  let existing_names := exercises.map (fun ex => normalize_exercise_name ex.name)
  let new_exercises :=
    ((uniqueFirst (rows.map (fun r => r.exercise))).filter
        (fun n => !existing_names.contains n)).map
      (fun n => { name := n, muscle_group := "Other", created_at := now : Exercise })
  let exercises' := if new_exercises.isEmpty then exercises else exercises ++ new_exercises
  match convertRows rows with
  | .error e => (exercises', workouts, false, "Error importing data: " ++ e)
  | .ok newWorkouts =>
    (exercises', workouts ++ newWorkouts, true,
      "Imported " ++ toString newWorkouts.length ++ " workouts" ++
        (if new_exercises.isEmpty then ""
         else " and added " ++ toString new_exercises.length ++
           " new exercises. Please categorize them in the Exercises tab."))

/-! ## Registry and lifecycle operations -/

/-- Python string `<` (code-point lexicographic). -/
def strLtb : List Char → List Char → Bool
  | [], [] => false
  | [], _ :: _ => true
  | _ :: _, [] => false
  | a :: as, b :: bs =>
    if a.toNat < b.toNat then true
    else if b.toNat < a.toNat then false
    else strLtb as bs

def strLt (s t : String) : Bool := strLtb s.data t.data

/-- `sorted(l)[-1]` on a list of strings (the lexicographic maximum; the
empty-list default is never reached by the callers). -/
def maxStr (l : List String) : String :=
  l.foldl (fun a b => if strLt a b then b else a) ""

/-- Python `s.startswith(pre)` on the character lists. -/
def strLeads : List Char → List Char → Bool
  | [], _ => true
  | _ :: _, [] => false
  | c :: cs, d :: ds => c == d && strLeads cs ds

def startsWith (s pre : String) : Bool := strLeads pre.data s.data

/-- Insertion sort by Python string `<` (used for the backup-retention
`sorted(...)`). -/
def insertStr (s : String) : List String → List String
  | [] => [s]
  | t :: ts => if strLt s t then s :: t :: ts else t :: insertStr s ts

def sortStr : List String → List String
  | [] => []
  | s :: ss => insertStr s (sortStr ss)

/-- `init_user_storage(username)`: creates the directory and default empty
files only where missing; an existing directory with its files is kept. -/
def init_user_storage (username : String) (st : FSState) : FSState :=
  match List.lookup username st.userDirs with
  | some _ => st
  | none => { st with userDirs := st.userDirs ++ [(username, emptyUserData)] }

/-- `create_backup()`: snapshot the users file and every registered user's
existing directory into a timestamped folder, then keep only the last 5
`backup_`-prefixed folders in sorted (= chronological) order. -/
def create_backup (ts : String) (st : FSState) : FSState :=
  let folder : BackupFolder :=
    { name := "backup_" ++ ts,
      usersFile := st.users,
      dirs := st.users.foldl
        (fun acc u =>
          match List.lookup u.name st.userDirs with
          | some d => acc ++ [(u.name, d)]
          | none => acc) [] }
  let bs := st.backups ++ [folder]
  let sortedNames := sortStr ((bs.map (fun b => b.name)).filter (fun n => startsWith n "backup_"))
  let bs' :=
    if 5 < sortedNames.length then
      let toDelete := sortedNames.take (sortedNames.length - 5)
      bs.filter (fun b => !toDelete.contains b.name)
    else bs
  { st with backups := bs' }

/-- `save_user(name)`; `code` is the randomly generated 4-digit protection
code and `now` is `datetime.now().isoformat()`. -/
def save_user (name code now : String) (st : FSState) : FSState × Bool × String :=
  if st.users.any (fun u => u.name == name) then (st, false, "User already exists")
  else
    let st1 := { st with users := st.users ++
      [{ id := st.users.length + 1, name := name, created_at := now,
         protection_code := some code }] }
    let st2 := init_user_storage name st1
    (st2, true, "Added user: " ++ name ++ "\nYour protection code is: " ++ code)

/-- `delete_user(name)`; `entered` is the interactively entered protection
code (`""` models the empty text input) and `ts` is the timestamp used for
the backup folder and the archive folder. -/
def delete_user (name entered ts : String) (st : FSState) : FSState × Bool × String :=
  match st.users.find? (fun u => u.name == name) with
  | none => (st, false, "User not found")
  | some user =>
    if entered = "" then (st, false, "Please enter the protection code")
    else if some entered ≠ user.protection_code then (st, false, "Incorrect protection code")
    else
      let st1 := create_backup ts st
      let st2 := { st1 with users := st1.users.filter (fun u => u.name != name) }
      let st3 :=
        match List.lookup name st2.userDirs with
        | some d =>
          { st2 with userDirs := st2.userDirs.filter (fun p => p.1 != name),
                     archives := st2.archives ++ [(name ++ "_" ++ ts, d)] }
        | none => st2
      (st3, true, "Deleted user: " ++ name)

/-- The archive folders whose names start with `username + "_"`. -/
def archivesFor (username : String) (st : FSState) : List String :=
  (st.archives.map (fun p => p.1)).filter (fun a => startsWith a (username ++ "_"))

/-- `restore_user(username)`; `now` is `datetime.now().isoformat()`.  Note
that the user record written back has no `protection_code` key. -/
def restore_user (username now : String) (st : FSState) : FSState × Bool × String :=
  let user_archives := archivesFor username st
  if user_archives = [] then (st, false, "No archive found for " ++ username)
  else
    let latest_archive := maxStr user_archives
    if st.users.any (fun u => u.name == username) then
      (st, false, "User " ++ username ++ " already exists")
    else
      let archData := (List.lookup latest_archive st.archives).getD emptyUserData
      let st1 := { st with users := st.users ++
        [{ id := st.users.length + 1, name := username, created_at := now,
           protection_code := none }] }
      -- init_user_storage, rmtree of the fresh directory, copytree from the
      -- archive: the net effect on the directory map is one overwrite.
      let st2 := init_user_storage username st1
      let st3 := { st2 with userDirs := dictSet username archData st2.userDirs,
                            archives := st2.archives.filter (fun p => p.1 != latest_archive) }
      (st3, true, "Restored user: " ++ username)

/-! ## Snapshot export / import -/

/-- The JSON object produced by `create_backup_file`. -/
structure Snapshot where
  timestamp : String
  users : List User
  user_data : List (String × UserData)
deriving Repr, DecidableEq

/-- The `for user in backup_data['users']` loop of `create_backup_file`:
collects each registered user's readable directory into the `user_data`
dict, silently skipping users whose files cannot be read. -/
def exportAux (dirs : List (String × UserData)) :
    List User → List (String × UserData) → List (String × UserData)
  | [], acc => acc
  | u :: us, acc =>
    match List.lookup u.name dirs with
    | some d => exportAux dirs us (dictSet u.name d acc)
    | none => exportAux dirs us acc

/-- `create_backup_file()` (the downloadable snapshot). -/
def create_backup_file (now : String) (st : FSState) : Snapshot :=
  { timestamp := now, users := st.users, user_data := exportAux st.userDirs st.users [] }

/-- The per-user restore loop of `restore_from_backup_file`:
`init_user_storage` followed by overwriting both files is one directory
overwrite per snapshot entry. -/
def applyUserData : List (String × UserData) → List (String × UserData) →
    List (String × UserData)
  | [], dirs => dirs
  | p :: ps, dirs => applyUserData ps (dictSet p.1 p.2 dirs)

/-- `restore_from_backup_file(backup_content)` on a successfully decoded
snapshot: replaces the users file wholesale, then overwrites the per-user
files of every user present in the snapshot's `user_data`. -/
def restore_from_backup_file (snap : Snapshot) (st : FSState) : FSState × Bool × String :=
  let st1 := { st with users := snap.users }
  let st2 := { st1 with userDirs := applyUserData snap.user_data st1.userDirs }
  (st2, true, "Backup restored successfully")

/-! ## Operation sequences (for the lifecycle invariant) -/

/-- One user-lifecycle operation, with the environment-supplied inputs
(timestamps, generated code, entered code, imported snapshot) made
explicit. -/
inductive Op where
  | reg (name code now : String)
  | del (name entered ts : String)
  | restoreU (name now : String)
  | importSnap (snap : Snapshot)
deriving Repr

def step (st : FSState) : Op → FSState
  | .reg n c t => (save_user n c t st).1
  | .del n e ts => (delete_user n e ts st).1
  | .restoreU n t => (restore_user n t st).1
  | .importSnap s => (restore_from_backup_file s st).1

/-- Running a sequence of operations on a freshly initialized system. -/
def run (ops : List Op) : FSState := ops.foldl step initState

/-- Every active user's per-user files exist on disk. -/
def activeFilesInv (st : FSState) : Prop :=
  ∀ u ∈ st.users, (List.lookup u.name st.userDirs).isSome = true

/-- An operation whose inputs could come from this system itself: any
snapshot given to import must be one exported from a state whose active
users all had readable files. -/
def opFromSystem : Op → Prop
  | .importSnap s => ∃ t σ, activeFilesInv σ ∧ s = create_backup_file t σ
  | _ => True

/-! ## Lemmas: character-level facts -/

theorem toNat_ofNat_valid (n : Nat) (h : n < 55296) : (Char.ofNat n).toNat = n := by
  simp [Char.ofNat, Char.toNat, Nat.isValidChar, h, Char.ofNatAux, UInt32.toNat,
    UInt32.ofNatTruncate, BitVec.toNat_ofNatLt]

theorem lowerChar_toNat_of_upper (c : Char) (h1 : 'A' ≤ c) (h2 : c ≤ 'Z') :
    (lowerChar c).toNat = c.toNat + 32 := by
  unfold lowerChar
  rw [if_pos ⟨h1, h2⟩]
  apply toNat_ofNat_valid
  rw [Char.le_def] at h2
  have h2' : c.toNat ≤ 90 := h2
  omega

theorem lowerChar_fix (x : Char) (h : ¬('A' ≤ x ∧ x ≤ 'Z')) : lowerChar x = x := by
  unfold lowerChar
  rw [if_neg h]

theorem lowerChar_idem (c : Char) : lowerChar (lowerChar c) = lowerChar c := by
  by_cases hc : 'A' ≤ c ∧ c ≤ 'Z'
  · apply lowerChar_fix
    have ht := lowerChar_toNat_of_upper c hc.1 hc.2
    have h1 : 65 ≤ c.toNat := by
      have h := hc.1
      rw [Char.le_def] at h
      exact h
    rintro ⟨-, h2⟩
    rw [Char.le_def] at h2
    have h2' : (lowerChar c).toNat ≤ 90 := h2
    omega
  · rw [lowerChar_fix c hc, lowerChar_fix c hc]

theorem isWs_false_of_toNat (x : Char) (h : 96 < x.toNat) : isWs x = false := by
  unfold isWs
  have hne : ∀ y : Char, y.toNat < 96 → (x == y) = false := by
    intro y hy
    apply beq_eq_false_iff_ne.mpr
    intro he
    subst he
    omega
  rw [hne ' ' (by decide), hne '\t' (by decide), hne '\n' (by decide),
    hne '\r' (by decide), hne '\x0b' (by decide), hne '\x0c' (by decide)]
  rfl

theorem isWs_lowerChar (c : Char) (h : isWs c = false) : isWs (lowerChar c) = false := by
  by_cases hc : 'A' ≤ c ∧ c ≤ 'Z'
  · apply isWs_false_of_toNat
    rw [lowerChar_toNat_of_upper c hc.1 hc.2]
    have h1 : 65 ≤ c.toNat := by
      have hh := hc.1
      rw [Char.le_def] at hh
      exact hh
    omega
  · rw [lowerChar_fix c hc]
    exact h

/-! ## Lemmas: `splitWs` and `joinWords` -/

theorem splitWs_ws_cons (c : Char) (r : List Char) (h : isWs c = true) :
    splitWs (c :: r) = splitWs r := by
  cases r with
  | nil => simp [splitWs, h]
  | cons x r' => simp [splitWs, h]

theorem splitWs_words (l : List Char) :
    ∀ w ∈ splitWs l, w ≠ [] ∧ ∀ c ∈ w, isWs c = false := by
  induction l using splitWs.induct with
  | case1 => simp [splitWs]
  | case2 c h => simp [splitWs, h]
  | case3 c h =>
    simp only [Bool.not_eq_true] at h
    simp [splitWs, h]
  | case4 c d cs h ih =>
    simp only [splitWs, h, if_pos]
    exact ih
  | case5 c d cs hc hd ih =>
    simp only [Bool.not_eq_true] at hc
    simp only [splitWs, hc, hd]
    intro w hw
    simp only [Bool.false_eq_true, if_false, if_true, List.mem_cons] at hw
    rcases hw with rfl | hw
    · exact ⟨by simp, by simp [hc]⟩
    · exact ih w hw
  | case6 c d cs hc hd w ws heq ih =>
    simp only [Bool.not_eq_true] at hc hd
    simp only [splitWs, hc, hd, heq, Bool.false_eq_true, if_false]
    intro w' hw'
    simp only [List.mem_cons] at hw'
    have hwmem : w ∈ splitWs (d :: cs) := by rw [heq]; exact List.mem_cons_self _ _
    have hwgood := ih w hwmem
    rcases hw' with rfl | hw'
    · refine ⟨by simp, ?_⟩
      intro x hx
      rcases List.mem_cons.mp hx with rfl | hx
      · exact hc
      · exact hwgood.2 x hx
    · exact ih w' (by rw [heq]; exact List.mem_cons_of_mem _ hw')
  | case7 c d cs hc hd heq ih =>
    simp only [Bool.not_eq_true] at hc hd
    simp only [splitWs, hc, hd, heq, Bool.false_eq_true, if_false]
    intro w hw
    simp only [List.mem_singleton] at hw
    subst hw
    exact ⟨by simp, by simp [hc]⟩

theorem splitWs_subset (l : List Char) :
    ∀ w ∈ splitWs l, ∀ c ∈ w, c ∈ l := by
  induction l using splitWs.induct with
  | case1 => simp [splitWs]
  | case2 c h => simp [splitWs, h]
  | case3 c h =>
    simp only [Bool.not_eq_true] at h
    simp [splitWs, h]
  | case4 c d cs h ih =>
    simp only [splitWs, h, if_pos]
    intro w hw x hx
    exact List.mem_cons_of_mem _ (ih w hw x hx)
  | case5 c d cs hc hd ih =>
    simp only [Bool.not_eq_true] at hc
    simp only [splitWs, hc, hd, Bool.false_eq_true, if_false, if_true]
    intro w hw x hx
    rcases List.mem_cons.mp hw with rfl | hw
    · simp only [List.mem_singleton] at hx
      subst hx
      exact List.mem_cons_self _ _
    · exact List.mem_cons_of_mem _ (ih w hw x hx)
  | case6 c d cs hc hd w ws heq ih =>
    simp only [Bool.not_eq_true] at hc hd
    simp only [splitWs, hc, hd, heq, Bool.false_eq_true, if_false]
    intro w' hw' x hx
    rcases List.mem_cons.mp hw' with rfl | hw'
    · rcases List.mem_cons.mp hx with rfl | hx
      · exact List.mem_cons_self _ _
      · have : w ∈ splitWs (d :: cs) := by rw [heq]; exact List.mem_cons_self _ _
        exact List.mem_cons_of_mem _ (ih w this x hx)
    · have : w' ∈ splitWs (d :: cs) := by rw [heq]; exact List.mem_cons_of_mem _ hw'
      exact List.mem_cons_of_mem _ (ih w' this x hx)
  | case7 c d cs hc hd heq ih =>
    simp only [Bool.not_eq_true] at hc hd
    simp only [splitWs, hc, hd, heq, Bool.false_eq_true, if_false]
    intro w hw x hx
    simp only [List.mem_singleton] at hw
    subst hw
    simp only [List.mem_singleton] at hx
    subst hx
    exact List.mem_cons_self _ _

theorem splitWs_word_append (w : List Char) (r : List Char) (hne : w ≠ [])
    (hnw : ∀ c ∈ w, isWs c = false) :
    splitWs (w ++ ' ' :: r) = w :: splitWs r := by
  induction w with
  | nil => exact absurd rfl hne
  | cons a t ih =>
    cases t with
    | nil =>
      have ha : isWs a = false := hnw a (List.mem_cons_self _ _)
      simp only [List.cons_append, List.nil_append, splitWs, ha, Bool.false_eq_true,
        if_false, show isWs ' ' = true from by decide, if_true]
      rw [splitWs_ws_cons ' ' r (by decide)]
    | cons b t' =>
      have ha : isWs a = false := hnw a (List.mem_cons_self _ _)
      have hb : isWs b = false := hnw b (List.mem_cons_of_mem _ (List.mem_cons_self _ _))
      have ih' := ih (by simp) (fun c hc => hnw c (List.mem_cons_of_mem _ hc))
      simp only [List.cons_append] at ih' ⊢
      simp only [splitWs, ha, hb, Bool.false_eq_true, if_false]
      rw [ih']

theorem splitWs_single_word (w : List Char) (hne : w ≠ [])
    (hnw : ∀ c ∈ w, isWs c = false) :
    splitWs w = [w] := by
  induction w with
  | nil => exact absurd rfl hne
  | cons a t ih =>
    cases t with
    | nil =>
      have ha : isWs a = false := hnw a (List.mem_cons_self _ _)
      simp [splitWs, ha]
    | cons b t' =>
      have ha : isWs a = false := hnw a (List.mem_cons_self _ _)
      have hb : isWs b = false := hnw b (List.mem_cons_of_mem _ (List.mem_cons_self _ _))
      have ih' := ih (by simp) (fun c hc => hnw c (List.mem_cons_of_mem _ hc))
      simp only [splitWs, ha, hb, Bool.false_eq_true, if_false, ih']

theorem splitWs_joinWords (ws : List (List Char))
    (h : ∀ w ∈ ws, w ≠ [] ∧ ∀ c ∈ w, isWs c = false) :
    splitWs (joinWords ws) = ws := by
  induction ws with
  | nil => simp [joinWords, splitWs]
  | cons w ws' ih =>
    cases ws' with
    | nil =>
      have hw := h w (List.mem_cons_self _ _)
      simp only [joinWords]
      exact splitWs_single_word w hw.1 hw.2
    | cons w' ws'' =>
      have hw := h w (List.mem_cons_self _ _)
      have ih' := ih (fun x hx => h x (List.mem_cons_of_mem _ hx))
      simp only [joinWords]
      rw [splitWs_word_append w _ hw.1 hw.2, ih']

theorem map_lowerChar_joinWords (ws : List (List Char)) :
    List.map lowerChar (joinWords ws) = joinWords (ws.map (List.map lowerChar)) := by
  induction ws with
  | nil => simp [joinWords]
  | cons w ws' ih =>
    cases ws' with
    | nil => simp [joinWords]
    | cons w' ws'' =>
      simp only [joinWords, List.map_append, List.map_cons, List.map] at ih ⊢
      rw [ih, show lowerChar ' ' = ' ' from by decide]

/-! ## Lemmas: `normalize_exercise_name` -/

theorem map_fix {α : Type} (f : α → α) (l : List α) (h : ∀ c ∈ l, f c = c) :
    List.map f l = l := by
  induction l with
  | nil => rfl
  | cons a t ih =>
    simp only [List.map_cons, h a (List.mem_cons_self _ _)]
    congr 1
    exact ih (fun c hc => h c (List.mem_cons_of_mem _ hc))

theorem norm_words_lower (s : String) :
    ∀ w ∈ splitWs (s.data.map lowerChar), List.map lowerChar w = w := by
  intro w hw
  apply map_fix
  intro c hc
  have hcin := splitWs_subset _ w hw c hc
  obtain ⟨c₀, -, rfl⟩ := List.mem_map.mp hcin
  exact lowerChar_idem c₀

theorem map_lower_normalize (s : String) :
    List.map lowerChar (normalize_exercise_name s).data = (normalize_exercise_name s).data := by
  show List.map lowerChar (joinWords (splitWs (s.data.map lowerChar)))
      = joinWords (splitWs (s.data.map lowerChar))
  rw [map_lowerChar_joinWords]
  congr 1
  exact map_fix _ _ (norm_words_lower s)

theorem normalize_idem (s : String) :
    normalize_exercise_name (normalize_exercise_name s) = normalize_exercise_name s := by
  show String.mk (joinWords (splitWs (List.map lowerChar
      (joinWords (splitWs (List.map lowerChar s.data))))))
    = String.mk (joinWords (splitWs (List.map lowerChar s.data)))
  rw [show List.map lowerChar (joinWords (splitWs (List.map lowerChar s.data)))
      = joinWords (splitWs (List.map lowerChar s.data)) from map_lower_normalize s]
  rw [splitWs_joinWords _ (splitWs_words _)]

theorem joinWords_ne_nil (ws : List (List Char)) (h : ∀ w ∈ ws, w ≠ [])
    (hne : ws ≠ []) : joinWords ws ≠ [] := by
  cases ws with
  | nil => exact absurd rfl hne
  | cons w ws' =>
    cases ws' with
    | nil => exact h w (List.mem_cons_self _ _)
    | cons w' ws'' =>
      simp only [joinWords]
      intro hcontr
      have := List.append_eq_nil.mp hcontr
      exact List.cons_ne_nil _ _ this.2

theorem headIsWs_joinWords (ws : List (List Char))
    (h : ∀ w ∈ ws, w ≠ [] ∧ ∀ c ∈ w, isWs c = false) :
    headIsWs (joinWords ws) = false := by
  cases ws with
  | nil => rfl
  | cons w ws' =>
    have hw := h w (List.mem_cons_self _ _)
    obtain ⟨c, t, rfl⟩ : ∃ c t, w = c :: t := by
      cases w with
      | nil => exact absurd rfl hw.1
      | cons c t => exact ⟨c, t, rfl⟩
    have hc : isWs c = false := hw.2 c (List.mem_cons_self _ _)
    cases ws' with
    | nil => exact hc
    | cons w' ws'' =>
      simp only [joinWords, List.cons_append, headIsWs]
      exact hc

theorem lastIsWs_cons (x : Char) (l : List Char) (h : l ≠ []) :
    lastIsWs (x :: l) = lastIsWs l := by
  cases l with
  | nil => exact absurd rfl h
  | cons y l' => rfl

theorem lastIsWs_append (a b : List Char) (h : b ≠ []) :
    lastIsWs (a ++ b) = lastIsWs b := by
  induction a with
  | nil => rfl
  | cons x a' ih =>
    rw [List.cons_append, lastIsWs_cons x (a' ++ b) (by
      intro hc
      exact h (List.append_eq_nil.mp hc).2), ih]

theorem lastIsWs_word (w : List Char) (h : ∀ c ∈ w, isWs c = false) :
    lastIsWs w = false := by
  induction w with
  | nil => rfl
  | cons a t ih =>
    cases t with
    | nil => exact h a (List.mem_cons_self _ _)
    | cons b t' =>
      rw [lastIsWs_cons a _ (by simp)]
      exact ih (fun c hc => h c (List.mem_cons_of_mem _ hc))

theorem lastIsWs_joinWords (ws : List (List Char))
    (h : ∀ w ∈ ws, w ≠ [] ∧ ∀ c ∈ w, isWs c = false) :
    lastIsWs (joinWords ws) = false := by
  induction ws with
  | nil => rfl
  | cons w ws' ih =>
    cases ws' with
    | nil => exact lastIsWs_word w (h w (List.mem_cons_self _ _)).2
    | cons w' ws'' =>
      have hJ : joinWords (w' :: ws'') ≠ [] :=
        joinWords_ne_nil _ (fun x hx => (h x (List.mem_cons_of_mem _ hx)).1) (by simp)
      simp only [joinWords]
      rw [lastIsWs_append w _ (by simp), lastIsWs_cons ' ' _ hJ]
      exact ih (fun x hx => h x (List.mem_cons_of_mem _ hx))

theorem not_space_of_not_ws (a : Char) (h : isWs a = false) : (a == ' ') = false := by
  simp only [isWs, Bool.or_eq_false_iff] at h
  exact h.1.1.1.1.1

theorem hds_word (w : List Char) (h : ∀ c ∈ w, isWs c = false) :
    hasDoubleSpace w = false := by
  induction w with
  | nil => rfl
  | cons a t ih =>
    cases t with
    | nil => rfl
    | cons b t' =>
      simp only [hasDoubleSpace, not_space_of_not_ws a (h a (List.mem_cons_self _ _)),
        Bool.false_and, Bool.false_or]
      exact ih (fun c hc => h c (List.mem_cons_of_mem _ hc))

theorem hds_word_append (w : List Char) (x : Char) (r : List Char)
    (h : ∀ c ∈ w, isWs c = false) :
    hasDoubleSpace (w ++ x :: r) = hasDoubleSpace (x :: r) := by
  induction w with
  | nil => rfl
  | cons a t ih =>
    have ha := not_space_of_not_ws a (h a (List.mem_cons_self _ _))
    cases t with
    | nil =>
      simp only [List.cons_append, List.nil_append, hasDoubleSpace, ha,
        Bool.false_and, Bool.false_or]
    | cons b t' =>
      simp only [List.cons_append, hasDoubleSpace, ha, Bool.false_and, Bool.false_or]
      simp only [List.cons_append] at ih
      exact ih (fun c hc => h c (List.mem_cons_of_mem _ hc))

theorem joinWords_cons_shape (c : Char) (t : List Char) (ws : List (List Char)) :
    ∃ l, joinWords ((c :: t) :: ws) = c :: l := by
  cases ws with
  | nil => exact ⟨t, rfl⟩
  | cons w' ws' => exact ⟨t ++ ' ' :: joinWords (w' :: ws'), rfl⟩

theorem hds_joinWords (ws : List (List Char))
    (h : ∀ w ∈ ws, w ≠ [] ∧ ∀ c ∈ w, isWs c = false) :
    hasDoubleSpace (joinWords ws) = false := by
  induction ws with
  | nil => rfl
  | cons w ws' ih =>
    cases ws' with
    | nil => exact hds_word w (h w (List.mem_cons_self _ _)).2
    | cons w' ws'' =>
      have hw' := h w' (List.mem_cons_of_mem _ (List.mem_cons_self _ _))
      obtain ⟨c, t, rfl⟩ : ∃ c t, w' = c :: t := by
        cases w' with
        | nil => exact absurd rfl hw'.1
        | cons c t => exact ⟨c, t, rfl⟩
      obtain ⟨l, hl⟩ := joinWords_cons_shape c t ws''
      simp only [joinWords]
      rw [hds_word_append w ' ' _ (h w (List.mem_cons_self _ _)).2, hl]
      simp only [hasDoubleSpace,
        not_space_of_not_ws c (hw'.2 c (List.mem_cons_self _ _)), Bool.and_false,
        Bool.false_or]
      rw [← hl]
      exact ih (fun x hx => h x (List.mem_cons_of_mem _ hx))

/-- C10: `normalize_exercise_name` is idempotent, and its output is
lowercase (every character is fixed by `lowerChar`), has no leading or
trailing whitespace, and contains no two consecutive spaces. -/
theorem C10_normalize_canonical (s : String) :
    normalize_exercise_name (normalize_exercise_name s) = normalize_exercise_name s ∧
    List.map lowerChar (normalize_exercise_name s).data = (normalize_exercise_name s).data ∧
    headIsWs (normalize_exercise_name s).data = false ∧
    lastIsWs (normalize_exercise_name s).data = false ∧
    hasDoubleSpace (normalize_exercise_name s).data = false := by
  refine ⟨normalize_idem s, map_lower_normalize s, ?_, ?_, ?_⟩
  · exact headIsWs_joinWords _ (splitWs_words _)
  · exact lastIsWs_joinWords _ (splitWs_words _)
  · exact hds_joinWords _ (splitWs_words _)

/-! ## Lemmas: `save_exercise` (C6) -/

theorem replaceFirst_none (nn mg : String) (exs : List Exercise)
    (h : ∀ e ∈ exs, normalize_exercise_name e.name ≠ nn) :
    replaceFirstExercise nn mg exs = none := by
  induction exs with
  | nil => rfl
  | cons e es ih =>
    have hb : (normalize_exercise_name e.name == nn) = false :=
      beq_eq_false_iff_ne.mpr (h e (List.mem_cons_self _ _))
    simp only [replaceFirstExercise, hb, Bool.false_eq_true, if_false,
      ih (fun x hx => h x (List.mem_cons_of_mem _ hx)), Option.map_none']

theorem replaceFirst_append_last (nn mg : String) (exs : List Exercise) (e : Exercise)
    (h : ∀ x ∈ exs, normalize_exercise_name x.name ≠ nn)
    (he : normalize_exercise_name e.name = nn) :
    replaceFirstExercise nn mg (exs ++ [e])
      = some (exs ++ [{ name := nn, muscle_group := mg, created_at := e.created_at }]) := by
  induction exs with
  | nil =>
    have hb : (normalize_exercise_name e.name == nn) = true := beq_iff_eq.mpr he
    simp only [List.nil_append, replaceFirstExercise, hb, if_true]
  | cons x xs ih =>
    have hb : (normalize_exercise_name x.name == nn) = false :=
      beq_eq_false_iff_ne.mpr (h x (List.mem_cons_self _ _))
    simp only [List.cons_append, replaceFirstExercise, hb, Bool.false_eq_true, if_false,
      List.append_eq, ih (fun y hy => h y (List.mem_cons_of_mem _ hy)), Option.map_some']

/-- C6: upserting the same normalized exercise name twice (with raw names
`n1`, `n2` normalizing to the same key, muscle groups `g1` then `g2`, at
times `t1` then `t2`, starting from a catalog without that key) leaves
exactly one catalog entry for that key, carrying `g2` and the creation time
`t1` of the first insertion. -/
theorem C6_upsert_twice (exs : List Exercise) (n1 n2 g1 g2 t1 t2 : String)
    (hk : normalize_exercise_name n2 = normalize_exercise_name n1)
    (h : ∀ e ∈ exs, normalize_exercise_name e.name ≠ normalize_exercise_name n1) :
    save_exercise n2 g2 t2 (save_exercise n1 g1 t1 exs)
      = exs ++ [{ name := normalize_exercise_name n1, muscle_group := g2,
                  created_at := t1 }] ∧
    ((save_exercise n2 g2 t2 (save_exercise n1 g1 t1 exs)).filter
        (fun e => normalize_exercise_name e.name == normalize_exercise_name n1)).length
      = 1 := by
  have hstep1 : save_exercise n1 g1 t1 exs
      = exs ++ [{ name := normalize_exercise_name n1, muscle_group := g1,
                  created_at := t1 }] := by
    simp only [save_exercise]
    rw [replaceFirst_none _ _ _ h]
  have hidem : normalize_exercise_name (normalize_exercise_name n1)
      = normalize_exercise_name n1 := normalize_idem n1
  have hstep2 : save_exercise n2 g2 t2 (save_exercise n1 g1 t1 exs)
      = exs ++ [{ name := normalize_exercise_name n1, muscle_group := g2,
                  created_at := t1 }] := by
    rw [hstep1]
    simp only [save_exercise, hk]
    rw [replaceFirst_append_last _ _ _ _ h hidem]
  refine ⟨hstep2, ?_⟩
  rw [hstep2, List.filter_append]
  have hnil : exs.filter
      (fun e => normalize_exercise_name e.name == normalize_exercise_name n1) = [] := by
    apply List.filter_eq_nil_iff.mpr
    intro e he
    simp only [beq_iff_eq]
    exact h e he
  rw [hnil]
  simp [hidem]

/-! ## Lemmas: association-list lookups -/

theorem str_beq_symm (a b : String) : (a == b) = (b == a) := by
  by_cases h : a = b
  · subst h
    rfl
  · rw [beq_eq_false_iff_ne.mpr h, beq_eq_false_iff_ne.mpr (Ne.symm h)]

theorem lookup_cons_self (k : String) (p : String × UserData)
    (ps : List (String × UserData)) (h : (k == p.1) = true) :
    List.lookup k (p :: ps) = some p.2 := by
  obtain ⟨a, b⟩ := p
  simp only at h
  simp [List.lookup, h]

theorem lookup_cons_ne (k : String) (p : String × UserData)
    (ps : List (String × UserData)) (h : (k == p.1) = false) :
    List.lookup k (p :: ps) = List.lookup k ps := by
  obtain ⟨a, b⟩ := p
  simp only at h
  simp [List.lookup, h]

theorem lookup_append (k : String) (d e : List (String × UserData)) :
    List.lookup k (d ++ e)
      = match List.lookup k d with
        | some v => some v
        | none => List.lookup k e := by
  induction d with
  | nil => simp [List.lookup]
  | cons p ps ih =>
    by_cases h : (k == p.1) = true
    · rw [List.cons_append, lookup_cons_self k p _ h, lookup_cons_self k p _ h]
    · simp only [Bool.not_eq_true] at h
      rw [List.cons_append, lookup_cons_ne k p _ h, lookup_cons_ne k p _ h, ih]

theorem lookup_none_of_not_any (k : String) (d : List (String × UserData))
    (h : d.any (fun p => p.1 == k) = false) : List.lookup k d = none := by
  induction d with
  | nil => rfl
  | cons p ps ih =>
    simp only [List.any_cons, Bool.or_eq_false_iff] at h
    have hk : (k == p.1) = false := by rw [str_beq_symm]; exact h.1
    rw [lookup_cons_ne k p _ hk]
    exact ih h.2

theorem lookup_dictSet_self (k : String) (v : UserData) (d : List (String × UserData)) :
    List.lookup k (dictSet k v d) = some v := by
  unfold dictSet
  by_cases h : d.any (fun p => p.1 == k) = true
  · rw [if_pos h]
    induction d with
    | nil => simp at h
    | cons p ps ih =>
      simp only [List.map_cons]
      by_cases hp : (p.1 == k) = true
      · rw [if_pos hp]
        exact lookup_cons_self k (k, v) _ (by simp)
      · simp only [Bool.not_eq_true] at hp
        rw [if_neg (by simp [hp])]
        have hk : (k == p.1) = false := by rw [str_beq_symm]; exact hp
        rw [lookup_cons_ne k p _ hk]
        simp only [List.any_cons, hp, Bool.false_or] at h
        exact ih h
  · simp only [Bool.not_eq_true] at h
    rw [if_neg (by simp [h])]
    rw [lookup_append, lookup_none_of_not_any k d h]
    exact lookup_cons_self k (k, v) _ (by simp)

theorem lookup_dictSet_ne (k k' : String) (v : UserData) (d : List (String × UserData))
    (h : (k == k') = false) :
    List.lookup k (dictSet k' v d) = List.lookup k d := by
  unfold dictSet
  by_cases hany : d.any (fun p => p.1 == k') = true
  · rw [if_pos hany]
    clear hany
    induction d with
    | nil => rfl
    | cons p ps ih =>
      simp only [List.map_cons]
      by_cases hp : (p.1 == k') = true
      · rw [if_pos hp]
        have hpk : (k == p.1) = false := by
          apply beq_eq_false_iff_ne.mpr
          intro hc
          rw [hc, beq_iff_eq.mp hp] at h
          simp at h
        rw [lookup_cons_ne k (k', v) _ (by simpa using h),
          lookup_cons_ne k p _ hpk, ih]
      · simp only [Bool.not_eq_true] at hp
        rw [if_neg (by simp [hp])]
        by_cases hkp : (k == p.1) = true
        · rw [lookup_cons_self k p _ hkp, lookup_cons_self k p _ hkp]
        · simp only [Bool.not_eq_true] at hkp
          rw [lookup_cons_ne k p _ hkp, lookup_cons_ne k p _ hkp, ih]
  · rw [if_neg hany]
    rw [lookup_append]
    have hnone : List.lookup k [(k', v)] = none := by
      rw [lookup_cons_ne k (k', v) _ (by simpa using h)]
      rfl
    rw [hnone]
    cases List.lookup k d <;> rfl

theorem lookup_filter_ne (k n : String) (d : List (String × UserData))
    (h : (k == n) = false) :
    List.lookup k (d.filter (fun p => p.1 != n)) = List.lookup k d := by
  induction d with
  | nil => rfl
  | cons p ps ih =>
    by_cases hp : (p.1 == n) = true
    · have hkp : (k == p.1) = false := by
        apply beq_eq_false_iff_ne.mpr
        intro hc
        rw [hc, beq_iff_eq.mp hp] at h
        simp at h
      have hcond : (p.1 != n) = false := by simp [bne, hp]
      simp only [List.filter_cons, hcond, Bool.false_eq_true, if_false]
      rw [ih, lookup_cons_ne k p _ hkp]
    · simp only [Bool.not_eq_true] at hp
      have hcond : (p.1 != n) = true := by simp [bne, hp]
      simp only [List.filter_cons, hcond, if_true]
      by_cases hkp : (k == p.1) = true
      · rw [lookup_cons_self k p _ hkp, lookup_cons_self k p _ hkp]
      · simp only [Bool.not_eq_true] at hkp
        rw [lookup_cons_ne k p _ hkp, lookup_cons_ne k p _ hkp, ih]

/-! ## Lemmas: Python string order and `maxStr` -/

theorem strLtb_irrefl (l : List Char) : strLtb l l = false := by
  induction l with
  | nil => rfl
  | cons a as ih => simp [strLtb, ih]

theorem strLtb_asymm : ∀ (a b : List Char), strLtb a b = true → strLtb b a = false
  | [], [], h => by simp [strLtb] at h
  | [], _ :: _, _ => rfl
  | _ :: _, [], h => by simp [strLtb] at h
  | x :: xs, y :: ys, h => by
    simp only [strLtb] at h ⊢
    by_cases hxy : x.toNat < y.toNat
    · rw [if_neg (by omega), if_pos hxy]
    · rw [if_neg hxy] at h
      by_cases hyx : y.toNat < x.toNat
      · rw [if_pos hyx] at h
        simp at h
      · rw [if_neg hyx] at h
        rw [if_neg hyx, if_neg hxy]
        exact strLtb_asymm xs ys h

theorem strLtb_ge_trans : ∀ (a b c : List Char),
    strLtb a b = false → strLtb b c = false → strLtb a c = false
  | [], b, c, h1, h2 => by
    cases b with
    | nil =>
      cases c with
      | nil => rfl
      | cons z zs => simp [strLtb] at h2
    | cons y ys => simp [strLtb] at h1
  | _ :: _, b, [], _, _ => rfl
  | x :: xs, b, z :: zs, h1, h2 => by
    cases b with
    | nil => simp [strLtb] at h2
    | cons y ys =>
      simp only [strLtb] at h1 h2 ⊢
      by_cases hxy : x.toNat < y.toNat
      · rw [if_pos hxy] at h1
        simp at h1
      · rw [if_neg hxy] at h1
        by_cases hyz : y.toNat < z.toNat
        · rw [if_pos hyz] at h2
          simp at h2
        · rw [if_neg hyz] at h2
          rw [if_neg (by omega : ¬x.toNat < z.toNat)]
          by_cases hzx : z.toNat < x.toNat
          · rw [if_pos hzx]
          · rw [if_neg hzx]
            have hyx : ¬y.toNat < x.toNat := by omega
            have hzy : ¬z.toNat < y.toNat := by omega
            rw [if_neg hyx] at h1
            rw [if_neg hzy] at h2
            exact strLtb_ge_trans xs ys zs h1 h2

theorem strLt_irrefl (s : String) : strLt s s = false := strLtb_irrefl s.data

theorem strLt_asymm (s t : String) (h : strLt s t = true) : strLt t s = false :=
  strLtb_asymm s.data t.data h

theorem strLt_ge_trans (a b c : String) (h1 : strLt a b = false)
    (h2 : strLt b c = false) : strLt a c = false :=
  strLtb_ge_trans a.data b.data c.data h1 h2

theorem foldl_max_mem (l : List String) (a : String) :
    l.foldl (fun x y => if strLt x y then y else x) a = a
      ∨ l.foldl (fun x y => if strLt x y then y else x) a ∈ l := by
  induction l generalizing a with
  | nil => exact Or.inl rfl
  | cons b t ih =>
    simp only [List.foldl_cons]
    rcases ih (if strLt a b then b else a) with h | h
    · rw [h]
      by_cases hab : strLt a b = true
      · rw [if_pos hab]
        exact Or.inr (List.mem_cons_self _ _)
      · simp only [Bool.not_eq_true] at hab
        rw [if_neg (by simp [hab])]
        exact Or.inl rfl
    · exact Or.inr (List.mem_cons_of_mem _ h)

theorem foldl_max_ge (l : List String) (a : String) :
    strLt (l.foldl (fun x y => if strLt x y then y else x) a) a = false
      ∧ ∀ x ∈ l, strLt (l.foldl (fun x y => if strLt x y then y else x) a) x = false := by
  induction l generalizing a with
  | nil => exact ⟨strLt_irrefl a, by simp⟩
  | cons b t ih =>
    simp only [List.foldl_cons]
    obtain ⟨ihge, ihall⟩ := ih (if strLt a b then b else a)
    have hfa : strLt (if strLt a b then b else a) a = false := by
      by_cases hab : strLt a b = true
      · rw [if_pos hab]
        exact strLt_asymm a b hab
      · simp only [Bool.not_eq_true] at hab
        rw [if_neg (by simp [hab])]
        exact strLt_irrefl a
    have hfb : strLt (if strLt a b then b else a) b = false := by
      by_cases hab : strLt a b = true
      · rw [if_pos hab]
        exact strLt_irrefl b
      · simp only [Bool.not_eq_true] at hab
        rw [if_neg (by simp [hab])]
        exact hab
    refine ⟨strLt_ge_trans _ _ _ ihge hfa, ?_⟩
    intro x hx
    rcases List.mem_cons.mp hx with rfl | hx
    · exact strLt_ge_trans _ _ _ ihge hfb
    · exact ihall x hx

theorem string_data_nonempty (s : String) (h : s ≠ "") : s.data ≠ [] := by
  intro hd
  apply h
  cases s with
  | mk data =>
    simp only at hd
    rw [hd]

theorem maxStr_mem (l : List String) (hne : l ≠ []) (hall : ∀ s ∈ l, s ≠ "") :
    maxStr l ∈ l := by
  cases l with
  | nil => exact absurd rfl hne
  | cons s t =>
    have hs : strLt "" s = true := by
      have hd := string_data_nonempty s (hall s (List.mem_cons_self _ _))
      unfold strLt
      cases hsd : s.data with
      | nil => exact absurd hsd hd
      | cons c cs => rfl
    unfold maxStr
    simp only [List.foldl_cons]
    rw [show (if strLt "" s then s else "") = s from by rw [hs]; rfl]
    rcases foldl_max_mem t s with h | h
    · rw [h]
      exact List.mem_cons_self _ _
    · exact List.mem_cons_of_mem _ h

theorem maxStr_ge (l : List String) (x : String) (hx : x ∈ l) :
    strLt (maxStr l) x = false :=
  (foldl_max_ge l "").2 x hx

/-! ## Lemmas: `init_user_storage` -/

theorem init_user_storage_users (n : String) (st : FSState) :
    (init_user_storage n st).users = st.users := by
  unfold init_user_storage
  cases List.lookup n st.userDirs <;> rfl

theorem init_user_storage_archives (n : String) (st : FSState) :
    (init_user_storage n st).archives = st.archives := by
  unfold init_user_storage
  cases List.lookup n st.userDirs <;> rfl

theorem init_user_storage_backups (n : String) (st : FSState) :
    (init_user_storage n st).backups = st.backups := by
  unfold init_user_storage
  cases List.lookup n st.userDirs <;> rfl

theorem lookup_init_self (n : String) (st : FSState) :
    (List.lookup n (init_user_storage n st).userDirs).isSome = true := by
  unfold init_user_storage
  cases h : List.lookup n st.userDirs with
  | some d => simp [h]
  | none =>
    simp only
    rw [lookup_append, h]
    rw [lookup_cons_self n (n, emptyUserData) _ (by simp)]
    rfl

theorem lookup_init_other (n k : String) (st : FSState) (h : (k == n) = false) :
    List.lookup k (init_user_storage n st).userDirs = List.lookup k st.userDirs := by
  unfold init_user_storage
  cases hl : List.lookup k st.userDirs with
  | some d =>
    cases List.lookup n st.userDirs with
    | some d' => exact hl
    | none =>
      simp only
      rw [lookup_append, hl]
  | none =>
    cases List.lookup n st.userDirs with
    | some d' => exact hl
    | none =>
      simp only
      rw [lookup_append, hl, lookup_cons_ne k (n, emptyUserData) _ h]
      rfl

/-! ## Claim theorems C2 – C5 -/

/-- C2 counterexample: restoring an archived user succeeds, but the restored
user record carries no protection code at all (`restore_user` writes the
record without that key), contradicting the claimed fresh 4-digit code. -/
theorem C2_cx :
    (restore_user "alice" "t9"
        ⟨[], [], [("alice_20240101_000000", ⟨[⟨"squat", "Legs", "t0"⟩], []⟩)], []⟩).2.1
      = true ∧
    (restore_user "alice" "t9"
        ⟨[], [], [("alice_20240101_000000", ⟨[⟨"squat", "Legs", "t0"⟩], []⟩)], []⟩).1.users.map
        User.protection_code
      = [none] := by
  exact ⟨by decide, by decide⟩

/-- C2 (amended): for a username with at least one archive folder and no
active registry entry, `restore_user` succeeds, re-registers the user with
id `len+1` and no protection code, overwrites the per-user directory with
the contents of the lexicographically-last matching archive folder, and
deletes that folder. -/
theorem C2_restore_archived (st : FSState) (u now : String)
    (h1 : archivesFor u st ≠ [])
    (h2 : st.users.any (fun x => x.name == u) = false) :
    (restore_user u now st).2.1 = true ∧
    (restore_user u now st).2.2 = "Restored user: " ++ u ∧
    (restore_user u now st).1.users
      = st.users ++ [{ id := st.users.length + 1, name := u, created_at := now,
                       protection_code := none }] ∧
    List.lookup u (restore_user u now st).1.userDirs
      = some ((List.lookup (maxStr (archivesFor u st)) st.archives).getD emptyUserData) ∧
    (restore_user u now st).1.archives
      = st.archives.filter (fun p => p.1 != maxStr (archivesFor u st)) ∧
    ∀ a ∈ archivesFor u st, strLt (maxStr (archivesFor u st)) a = false := by
  simp only [restore_user]
  rw [if_neg h1]
  simp only [h2, Bool.false_eq_true, if_false]
  refine ⟨by trivial, by trivial, ?_, ?_, ?_, ?_⟩
  · exact init_user_storage_users u _
  · exact lookup_dictSet_self u _ _
  · rw [init_user_storage_archives]
  · intro a ha
    exact maxStr_ge _ a ha

/-- C3 counterexample: for an active user with no archive folder,
`restore_user` fails with the NotFound-style message, not the
AlreadyExists-style one; so "fails with AlreadyExists whenever the user is
active" is false as stated. -/
theorem C3_cx :
    restore_user "alice" "t9"
        ⟨[⟨1, "alice", "t0", some "1234"⟩], [("alice", ⟨[], []⟩)], [], []⟩
      = (⟨[⟨1, "alice", "t0", some "1234"⟩], [("alice", ⟨[], []⟩)], [], []⟩, false,
         "No archive found for alice") ∧
    ("No archive found for alice" : String) ≠ "User alice already exists" := by
  exact ⟨by decide, by decide⟩

/-- C3 (amended): `restore_user` fails with the NotFound-style message
whenever no archive folder for the name exists (even if the user is
active — that check comes first), and fails with the AlreadyExists-style
message when an archive exists and the user is active. -/
theorem C3_restore_errors (st1 st2 : FSState) (n1 n2 now1 now2 : String)
    (h1 : archivesFor n1 st1 = [])
    (h2 : archivesFor n2 st2 ≠ [])
    (h3 : st2.users.any (fun u => u.name == n2) = true) :
    restore_user n1 now1 st1 = (st1, false, "No archive found for " ++ n1) ∧
    restore_user n2 now2 st2 = (st2, false, "User " ++ n2 ++ " already exists") := by
  constructor
  · simp only [restore_user]
    rw [if_pos h1]
  · simp only [restore_user]
    rw [if_neg h2]
    simp only [h3, if_true]

/-- C4: deleting an active user with a non-empty entered code different
from the stored protection code fails with "Incorrect protection code" and
leaves the entire state unchanged: the user stays registered, no directory
is archived, and no backup folder is created. -/
theorem C4_wrong_code (st : FSState) (name entered ts : String) (u : User)
    (hfind : st.users.find? (fun x => x.name == name) = some u)
    (hne : entered ≠ "")
    (hcode : some entered ≠ u.protection_code) :
    delete_user name entered ts st = (st, false, "Incorrect protection code") := by
  unfold delete_user
  rw [hfind]
  simp only
  rw [if_neg hne, if_pos hcode]

/-- C5: registering a name that is already in the registry fails with
"User already exists" and returns the state unchanged (registry file and
all per-user files untouched). -/
theorem C5_duplicate_register (st : FSState) (name code now : String)
    (h : st.users.any (fun u => u.name == name) = true) :
    save_user name code now st = (st, false, "User already exists") := by
  simp [save_user, h]

/-! ## Lemmas: snapshot export / import (C1, C9) -/

theorem mem_dictSet (p : String × UserData) (k : String) (v : UserData)
    (d : List (String × UserData)) (h : p ∈ dictSet k v d) : p ∈ d ∨ p = (k, v) := by
  unfold dictSet at h
  by_cases hany : d.any (fun q => q.1 == k) = true
  · rw [if_pos hany] at h
    obtain ⟨q, hq, hfq⟩ := List.mem_map.mp h
    by_cases hqk : (q.1 == k) = true
    · rw [if_pos hqk] at hfq
      exact Or.inr hfq.symm
    · simp only [Bool.not_eq_true] at hqk
      rw [if_neg (by simp [hqk])] at hfq
      exact Or.inl (hfq ▸ hq)
  · rw [if_neg hany] at h
    rcases List.mem_append.mp h with h | h
    · exact Or.inl h
    · exact Or.inr (List.mem_singleton.mp h)

theorem key_dictSet_self (k : String) (v : UserData) (d : List (String × UserData)) :
    ∃ p ∈ dictSet k v d, p.1 = k := by
  unfold dictSet
  by_cases hany : d.any (fun q => q.1 == k) = true
  · rw [if_pos hany]
    obtain ⟨q, hq, hqk⟩ := List.any_eq_true.mp hany
    refine ⟨(k, v), ?_, rfl⟩
    apply List.mem_map.mpr
    exact ⟨q, hq, by rw [if_pos hqk]⟩
  · rw [if_neg hany]
    exact ⟨(k, v), List.mem_append.mpr (Or.inr (List.mem_singleton.mpr rfl)), rfl⟩

theorem key_dictSet_mono (k k' : String) (v : UserData) (d : List (String × UserData))
    (h : ∃ p ∈ d, p.1 = k) : ∃ p ∈ dictSet k' v d, p.1 = k := by
  unfold dictSet
  by_cases hany : d.any (fun q => q.1 == k') = true
  · rw [if_pos hany]
    obtain ⟨p, hp, hpk⟩ := h
    by_cases hpk' : (p.1 == k') = true
    · refine ⟨(k', v), List.mem_map.mpr ⟨p, hp, by rw [if_pos hpk']⟩, ?_⟩
      rw [← beq_iff_eq.mp hpk', hpk]
    · simp only [Bool.not_eq_true] at hpk'
      exact ⟨p, List.mem_map.mpr ⟨p, hp, by rw [if_neg (by simp [hpk'])]⟩, hpk⟩
  · rw [if_neg hany]
    obtain ⟨p, hp, hpk⟩ := h
    exact ⟨p, List.mem_append.mpr (Or.inl hp), hpk⟩

theorem exportAux_sound (dirs : List (String × UserData)) :
    ∀ (us : List User) (acc : List (String × UserData)),
      (∀ p ∈ acc, List.lookup p.1 dirs = some p.2) →
      ∀ p ∈ exportAux dirs us acc, List.lookup p.1 dirs = some p.2 := by
  intro us
  induction us with
  | nil => intro acc hacc p hp; exact hacc p hp
  | cons u us' ih =>
    intro acc hacc p hp
    simp only [exportAux] at hp
    cases hl : List.lookup u.name dirs with
    | some d0 =>
      rw [hl] at hp
      refine ih _ ?_ p hp
      intro q hq
      rcases mem_dictSet q u.name d0 acc hq with hq' | hq'
      · exact hacc q hq'
      · rw [hq']
        exact hl
    | none =>
      rw [hl] at hp
      exact ih _ hacc p hp

theorem exportAux_key_mono (dirs : List (String × UserData)) :
    ∀ (us : List User) (acc : List (String × UserData)) (k : String),
      (∃ p ∈ acc, p.1 = k) → ∃ p ∈ exportAux dirs us acc, p.1 = k := by
  intro us
  induction us with
  | nil => intro acc k h; exact h
  | cons u us' ih =>
    intro acc k h
    simp only [exportAux]
    cases hl : List.lookup u.name dirs with
    | some d0 => exact ih _ k (key_dictSet_mono k u.name d0 acc h)
    | none => exact ih _ k h

theorem exportAux_key_of_mem (dirs : List (String × UserData)) :
    ∀ (us : List User) (acc : List (String × UserData)) (u : User), u ∈ us →
      (List.lookup u.name dirs).isSome = true →
      ∃ p ∈ exportAux dirs us acc, p.1 = u.name := by
  intro us
  induction us with
  | nil => intro acc u h; exact absurd h (List.not_mem_nil u)
  | cons v us' ih =>
    intro acc u hu hsome
    simp only [exportAux]
    rcases List.mem_cons.mp hu with rfl | hu
    · cases hl : List.lookup u.name dirs with
      | some d0 => exact exportAux_key_mono dirs us' _ u.name (key_dictSet_self u.name d0 acc)
      | none => rw [hl] at hsome; simp at hsome
    · cases hl : List.lookup v.name dirs with
      | some d0 => exact ih _ u hu hsome
      | none => exact ih _ u hu hsome

theorem lookup_applyUserData_absent (k : String) :
    ∀ (pairs : List (String × UserData)) (d : List (String × UserData)),
      (∀ p ∈ pairs, p.1 ≠ k) →
      List.lookup k (applyUserData pairs d) = List.lookup k d := by
  intro pairs
  induction pairs with
  | nil => intro d _; rfl
  | cons q ps ih =>
    intro d h
    simp only [applyUserData]
    rw [ih _ (fun p hp => h p (List.mem_cons_of_mem _ hp))]
    exact lookup_dictSet_ne k q.1 q.2 d
      (beq_eq_false_iff_ne.mpr (fun hc => h q (List.mem_cons_self _ _) hc.symm))

theorem lookup_applyUserData_eq (k : String) (v : UserData) :
    ∀ (pairs : List (String × UserData)) (d : List (String × UserData)),
      (∀ p ∈ pairs, p.1 = k → p.2 = v) →
      (∃ p ∈ pairs, p.1 = k) →
      List.lookup k (applyUserData pairs d) = some v := by
  intro pairs
  induction pairs with
  | nil =>
    intro d _ hmem
    obtain ⟨p, hp, -⟩ := hmem
    exact absurd hp (List.not_mem_nil p)
  | cons q ps ih =>
    intro d hall hmem
    simp only [applyUserData]
    by_cases htail : ∃ p ∈ ps, p.1 = k
    · exact ih _ (fun p hp => hall p (List.mem_cons_of_mem _ hp)) htail
    · have habs : ∀ p ∈ ps, p.1 ≠ k := by
        intro p hp hc
        exact htail ⟨p, hp, hc⟩
      rw [lookup_applyUserData_absent k ps _ habs]
      have hq : q.1 = k := by
        obtain ⟨p, hp, hpk⟩ := hmem
        rcases List.mem_cons.mp hp with rfl | hp
        · exact hpk
        · exact absurd hpk (habs p hp)
      have hv : q.2 = v := hall q (List.mem_cons_self _ _) hq
      rw [← hq, ← hv]
      exact lookup_dictSet_self q.1 q.2 d

theorem lookup_applyUserData_isSome (k : String) :
    ∀ (pairs : List (String × UserData)) (d : List (String × UserData)),
      (∃ p ∈ pairs, p.1 = k) →
      (List.lookup k (applyUserData pairs d)).isSome = true := by
  intro pairs
  induction pairs with
  | nil =>
    intro d hmem
    obtain ⟨p, hp, -⟩ := hmem
    exact absurd hp (List.not_mem_nil p)
  | cons q ps ih =>
    intro d hmem
    simp only [applyUserData]
    by_cases htail : ∃ p ∈ ps, p.1 = k
    · exact ih _ htail
    · have habs : ∀ p ∈ ps, p.1 ≠ k := fun p hp hc => htail ⟨p, hp, hc⟩
      rw [lookup_applyUserData_absent k ps _ habs]
      have hq : q.1 = k := by
        obtain ⟨p, hp, hpk⟩ := hmem
        rcases List.mem_cons.mp hp with rfl | hp
        · exact hpk
        · exact absurd hpk (habs p hp)
      rw [← hq, lookup_dictSet_self q.1 q.2 d]
      rfl

/-- C1: exporting a snapshot and importing it back into the same state
reproduces the registry exactly, and every user whose per-user files were
readable at export time gets back exactly the exercises and workouts that
were exported. -/
theorem C1_snapshot_roundtrip (st : FSState) (now : String) :
    (restore_from_backup_file (create_backup_file now st) st).1.users = st.users ∧
    ∀ u ∈ st.users, ∀ d0 : UserData,
      List.lookup u.name st.userDirs = some d0 →
      List.lookup u.name
          (restore_from_backup_file (create_backup_file now st) st).1.userDirs
        = some d0 := by
  constructor
  · rfl
  · intro u hu d0 hd
    show List.lookup u.name
        (applyUserData (exportAux st.userDirs st.users []) st.userDirs) = some d0
    apply lookup_applyUserData_eq
    · intro p hp hpk
      have hsound := exportAux_sound st.userDirs st.users [] (by simp) p hp
      rw [hpk, hd] at hsound
      exact (Option.some_injective _ hsound).symm
    · exact exportAux_key_of_mem st.userDirs st.users [] u hu (by rw [hd]; rfl)

/-! ## Lemmas: `get_last_workout` (C7) -/

theorem parseAllDates_ok (ws : List Workout)
    (h : ∀ w ∈ ws, (parseDate w.date).isSome = true) :
    parseAllDates ws = .ok (ws.map (fun w => (w, (parseDate w.date).getD 0))) := by
  induction ws with
  | nil => rfl
  | cons w ws' ih =>
    cases hw : parseDate w.date with
    | none =>
      have hws := h w (List.mem_cons_self _ _)
      rw [hw] at hws
      simp at hws
    | some d =>
      simp only [parseAllDates, hw, ih (fun x hx => h x (List.mem_cons_of_mem _ hx))]
      simp [hw]

theorem pickLatest_spec : ∀ (l : List (Workout × Nat)), l ≠ [] →
    ∃ p, pickLatest l = some p ∧ p ∈ l ∧ ∀ q ∈ l, q.2 ≤ p.2 := by
  intro l
  induction l with
  | nil => intro h; exact absurd rfl h
  | cons a t ih =>
    intro _
    cases t with
    | nil =>
      refine ⟨a, rfl, List.mem_cons_self _ _, ?_⟩
      intro q hq
      rcases List.mem_cons.mp hq with rfl | hq
      · exact Nat.le_refl _
      · exact absurd hq (List.not_mem_nil q)
    | cons b t' =>
      obtain ⟨p, hp, hmem, hbound⟩ := ih (by simp)
      simp only [pickLatest] at hp ⊢
      rw [hp]
      by_cases hc : a.2 < p.2
      · refine ⟨p, ?_, List.mem_cons_of_mem _ hmem, ?_⟩
        · show (if a.2 < p.2 then some p else some a) = some p
          rw [if_pos hc]
        · intro q hq
          rcases List.mem_cons.mp hq with rfl | hq
          · exact Nat.le_of_lt hc
          · exact hbound q hq
      · refine ⟨a, ?_, List.mem_cons_self _ _, ?_⟩
        · show (if a.2 < p.2 then some p else some a) = some a
          rw [if_neg hc]
        · intro q hq
          rcases List.mem_cons.mp hq with rfl | hq
          · exact Nat.le_refl _
          · exact Nat.le_trans (hbound q hq) (Nat.le_of_not_lt hc)

theorem filter_map_dated (E : String) (ws : List Workout) :
    ((ws.map (fun w => (w, (parseDate w.date).getD 0))).filter
        (fun p => p.1.exercise == E))
      = (ws.filter (fun w => w.exercise == E)).map
          (fun w => (w, (parseDate w.date).getD 0)) := by
  induction ws with
  | nil => rfl
  | cons w ws' ih =>
    by_cases hw : (w.exercise == E) = true
    · simp only [List.map_cons, List.filter_cons, hw, if_true, ih]
    · simp only [Bool.not_eq_true] at hw
      simp only [List.map_cons, List.filter_cons, hw, Bool.false_eq_true, if_false, ih]

/-- C7 counterexample: with two stored sets for the same exercise where the
most recently appended one carries an earlier date (exactly what CSV import
of historical data produces), `get_last_workout` returns the max-date set,
not the most recently appended one. -/
theorem C7_cx :
    get_last_workout "bench press"
        [⟨"2024-05-01", "bench press", mkRat 100 1, 5⟩,
         ⟨"2024-01-02", "bench press", mkRat 50 1, 3⟩]
      = Except.ok (some ⟨"2024-05-01", "bench press", mkRat 100 1, 5⟩) ∧
    List.getLast? [⟨"2024-05-01", "bench press", mkRat 100 1, 5⟩,
        (⟨"2024-01-02", "bench press", mkRat 50 1, 3⟩ : Workout)]
      = some ⟨"2024-01-02", "bench press", mkRat 50 1, 3⟩ ∧
    (⟨"2024-05-01", "bench press", mkRat 100 1, 5⟩ : Workout)
      ≠ ⟨"2024-01-02", "bench press", mkRat 50 1, 3⟩ := by
  exact ⟨by decide, by decide, by decide⟩

/-- C7 (amended): when every stored date parses, `get_last_workout` returns
`none` while no set of the exercise is stored, and afterwards returns a
stored set of that exercise whose parsed date is maximal among that
exercise's sets (the most recently appended set only when that one has the
latest date). -/
theorem C7_last_workout (ws1 ws2 : List Workout) (E1 E2 : String)
    (hp1 : ∀ w ∈ ws1, (parseDate w.date).isSome = true)
    (hn : ∀ w ∈ ws1, w.exercise ≠ E1)
    (hp2 : ∀ w ∈ ws2, (parseDate w.date).isSome = true)
    (he : ∃ w ∈ ws2, w.exercise = E2) :
    get_last_workout E1 ws1 = .ok none ∧
    ∃ w, get_last_workout E2 ws2 = .ok (some w) ∧ w ∈ ws2 ∧ w.exercise = E2 ∧
      ∀ w' ∈ ws2, w'.exercise = E2 →
        (parseDate w'.date).getD 0 ≤ (parseDate w.date).getD 0 := by
  constructor
  · by_cases h0 : ws1 = []
    · subst h0
      rfl
    · unfold get_last_workout
      rw [if_neg h0, parseAllDates_ok ws1 hp1]
      simp only [filter_map_dated]
      have hnil : ws1.filter (fun w => w.exercise == E1) = [] :=
        List.filter_eq_nil_iff.mpr (fun w hw => by simp [hn w hw])
      rw [hnil]
      rfl
  · have hne : ws2 ≠ [] := by
      obtain ⟨w, hw, -⟩ := he
      exact List.ne_nil_of_mem hw
    unfold get_last_workout
    rw [if_neg hne, parseAllDates_ok ws2 hp2]
    simp only [filter_map_dated]
    have hmapne : (ws2.filter (fun w => w.exercise == E2)).map
        (fun w => (w, (parseDate w.date).getD 0)) ≠ [] := by
      obtain ⟨w, hw, hwe⟩ := he
      have : w ∈ ws2.filter (fun w => w.exercise == E2) :=
        List.mem_filter.mpr ⟨hw, by simp [hwe]⟩
      simp only [ne_eq, List.map_eq_nil_iff]
      exact List.ne_nil_of_mem this
    obtain ⟨p, hp, hmem, hbound⟩ := pickLatest_spec _ hmapne
    obtain ⟨w0, hw0, rfl⟩ := List.mem_map.mp hmem
    rw [hp]
    refine ⟨w0, rfl, (List.mem_filter.mp hw0).1, beq_iff_eq.mp (List.mem_filter.mp hw0).2, ?_⟩
    intro w' hw' hwe'
    have hmem' : (w', (parseDate w'.date).getD 0)
        ∈ (ws2.filter (fun w => w.exercise == E2)).map
            (fun w => (w, (parseDate w.date).getD 0)) :=
      List.mem_map_of_mem _ (List.mem_filter.mpr ⟨hw', by simp [hwe']⟩)
    exact hbound _ hmem'

/-! ## Lemmas: `import_from_csv` (C8) -/

theorem convertRows_error : ∀ (rs : List CSVRow), (∃ r ∈ rs, badRow r = true) →
    ∃ e, convertRows rs = .error e := by
  intro rs
  induction rs with
  | nil =>
    intro h
    obtain ⟨r, hr, -⟩ := h
    exact absurd hr (List.not_mem_nil r)
  | cons r rs' ih =>
    intro h
    simp only [convertRows]
    cases hd : parseDate r.date with
    | none => exact ⟨_, rfl⟩
    | some d =>
      cases hw : parseFloat r.weight with
      | none => exact ⟨_, rfl⟩
      | some wt =>
        cases hrp : parseInt r.reps with
        | none => exact ⟨_, rfl⟩
        | some rp =>
          have hr : ∃ x ∈ rs', badRow x = true := by
            obtain ⟨x, hx, hbad⟩ := h
            rcases List.mem_cons.mp hx with rfl | hx
            · exfalso
              unfold badRow at hbad
              rw [hd, hw, hrp] at hbad
              simp at hbad
            · exact ⟨x, hx, hbad⟩
          obtain ⟨e, he⟩ := ih hr
          rw [he]
          exact ⟨e, rfl⟩

/-- C8 counterexample: a CSV with all required columns whose single row has
uncoercible reps makes the import fail with no workout rows committed, yet
the new exercise name has already been written to the exercises file, so
the user's stored data did change during the failed import. -/
theorem C8_cx :
    import_from_csv [⟨"2024-01-01", "Bench Press", "60", "bad"⟩] "t1" [] []
      = ([⟨"bench press", "Other", "t1"⟩], [], false,
         "Error importing data: invalid literal for int: bad") ∧
    ([⟨"bench press", "Other", "t1"⟩] : List Exercise) ≠ [] := by
  exact ⟨by decide, by decide⟩

/-- C8 (amended): when some row's date, weight, or reps cannot be coerced,
the import returns failure with a descriptive message and commits no
workout rows — but new exercise names from the CSV may already have been
committed to the exercises file before the failure. -/
theorem C8_failed_import (rows : List CSVRow) (now : String)
    (exs : List Exercise) (ws : List Workout)
    (h : ∃ r ∈ rows, badRow r = true) :
    (import_from_csv rows now exs ws).2.2.1 = false ∧
    (import_from_csv rows now exs ws).2.1 = ws ∧
    ∃ e, (import_from_csv rows now exs ws).2.2.2 = "Error importing data: " ++ e := by
  have hmap : ∃ r ∈ rows.map normRow, badRow r = true := by
    obtain ⟨r, hr, hb⟩ := h
    exact ⟨normRow r, List.mem_map_of_mem _ hr, hb⟩
  obtain ⟨e, he⟩ := convertRows_error _ hmap
  simp only [import_from_csv, he]
  exact ⟨by trivial, by trivial, e, by trivial⟩

/-! ## Lemmas: the lifecycle invariant (C9) -/

theorem lookup_isSome_dictSet (k k' : String) (v : UserData)
    (d : List (String × UserData)) (h : (List.lookup k d).isSome = true) :
    (List.lookup k (dictSet k' v d)).isSome = true := by
  by_cases hk : (k == k') = true
  · rw [beq_iff_eq.mp hk, lookup_dictSet_self]
    rfl
  · simp only [Bool.not_eq_true] at hk
    rw [lookup_dictSet_ne k k' v d hk]
    exact h

theorem save_user_inv (st : FSState) (n c t : String) (hinv : activeFilesInv st) :
    activeFilesInv (save_user n c t st).1 := by
  simp only [save_user]
  split
  · exact hinv
  · intro u hu
    rw [init_user_storage_users] at hu
    by_cases hn : (u.name == n) = true
    · rw [beq_iff_eq.mp hn]
      exact lookup_init_self n _
    · simp only [Bool.not_eq_true] at hn
      rw [lookup_init_other n u.name _ hn]
      rcases List.mem_append.mp hu with hu | hu
      · exact hinv u hu
      · simp only [List.mem_singleton] at hu
        subst hu
        simp at hn

theorem delete_user_inv (st : FSState) (n e ts : String) (hinv : activeFilesInv st) :
    activeFilesInv (delete_user n e ts st).1 := by
  unfold delete_user
  split
  · exact hinv
  · split
    · exact hinv
    · split
      · exact hinv
      · dsimp only
        split
        · intro u hu
          dsimp only at hu ⊢
          have hu' := List.mem_filter.mp hu
          have hne : u.name ≠ n := by
            have := hu'.2
            simp only [bne_iff_ne, ne_eq] at this
            exact this
          rw [lookup_filter_ne u.name n _ (beq_eq_false_iff_ne.mpr hne)]
          exact hinv u hu'.1
        · intro u hu
          dsimp only at hu ⊢
          have hu' := List.mem_filter.mp hu
          exact hinv u hu'.1

theorem restore_user_inv (st : FSState) (n t : String) (hinv : activeFilesInv st) :
    activeFilesInv (restore_user n t st).1 := by
  simp only [restore_user]
  split
  · exact hinv
  · split
    · exact hinv
    · rename_i hactive
      intro u hu
      dsimp only at hu ⊢
      rw [init_user_storage_users] at hu
      rcases List.mem_append.mp hu with hu | hu
      · have hne : u.name ≠ n := by
          intro hc
          apply hactive
          apply List.any_eq_true.mpr
          exact ⟨u, hu, by simp [hc]⟩
        rw [lookup_dictSet_ne u.name n _ _ (beq_eq_false_iff_ne.mpr hne),
          lookup_init_other n u.name _ (beq_eq_false_iff_ne.mpr hne)]
        exact hinv u hu
      · simp only [List.mem_singleton] at hu
        subst hu
        simp only
        rw [lookup_dictSet_self]
        rfl

theorem import_snapshot_inv (st σ : FSState) (t : String) (hσ : activeFilesInv σ) :
    activeFilesInv (restore_from_backup_file (create_backup_file t σ) st).1 := by
  intro u hu
  have hu' : u ∈ σ.users := hu
  have hsome : (List.lookup u.name σ.userDirs).isSome = true := hσ u hu'
  obtain ⟨p, hp, hpk⟩ := exportAux_key_of_mem σ.userDirs σ.users [] u hu' hsome
  exact lookup_applyUserData_isSome u.name _ _ ⟨p, hp, hpk⟩

theorem step_inv (st : FSState) (op : Op) (hinv : activeFilesInv st)
    (hop : opFromSystem op) : activeFilesInv (step st op) := by
  cases op with
  | reg n c t => exact save_user_inv st n c t hinv
  | del n e ts => exact delete_user_inv st n e ts hinv
  | restoreU n t => exact restore_user_inv st n t hinv
  | importSnap s =>
    obtain ⟨t, σ, hσ, rfl⟩ := hop
    exact import_snapshot_inv st σ t hσ

/-- C9 counterexample: register alice, register bob, then import the
snapshot exported just after alice was registered.  Bob's per-user files
are still on disk but bob is no longer in the registry, so "files exist iff
the user is active" fails for sequences that include snapshot import. -/
theorem C9_cx :
    (List.lookup "bob"
        (run [Op.reg "alice" "1111" "t1", Op.reg "bob" "2222" "t2",
              Op.importSnap (create_backup_file "t3"
                (run [Op.reg "alice" "1111" "t1"]))]).userDirs).isSome = true ∧
    (run [Op.reg "alice" "1111" "t1", Op.reg "bob" "2222" "t2",
          Op.importSnap (create_backup_file "t3"
            (run [Op.reg "alice" "1111" "t1"]))]).users.any
        (fun u => u.name == "bob") = false := by
  exact ⟨by decide, by decide⟩

/-- C9 (amended): starting from a fresh system, after any sequence of
register / delete / restore / snapshot-import operations (where every
snapshot handed to import was exported from a state whose active users
all had readable files), every active user's per-user files exist on disk.  The
converse direction fails: snapshot import does not remove the directories
of users registered after the snapshot was taken (see the counterexample). -/
theorem C9_active_users_have_files (ops : List Op)
    (hops : ∀ op ∈ ops, opFromSystem op) :
    activeFilesInv (run ops) := by
  have hgen : ∀ (l : List Op) (st : FSState), activeFilesInv st →
      (∀ op ∈ l, opFromSystem op) → activeFilesInv (l.foldl step st) := by
    intro l
    induction l with
    | nil => intro st h _; exact h
    | cons op l' ih =>
      intro st h hl
      simp only [List.foldl_cons]
      exact ih _ (step_inv st op h (hl op (List.mem_cons_self _ _)))
        (fun o ho => hl o (List.mem_cons_of_mem _ ho))
  exact hgen ops initState (fun u hu => absurd hu (List.not_mem_nil u)) hops

/-! ## Witnesses: the claim theorems applied at concrete inputs -/

theorem C1_snapshot_roundtrip_witness :
    (restore_from_backup_file
        (create_backup_file "t1"
          ⟨[⟨1, "alice", "t0", some "1234"⟩],
           [("alice", ⟨[⟨"squat", "Legs", "t0"⟩], []⟩)], [], []⟩)
        ⟨[⟨1, "alice", "t0", some "1234"⟩],
         [("alice", ⟨[⟨"squat", "Legs", "t0"⟩], []⟩)], [], []⟩).1.users
      = [⟨1, "alice", "t0", some "1234"⟩] ∧
    List.lookup "alice"
        (restore_from_backup_file
          (create_backup_file "t1"
            ⟨[⟨1, "alice", "t0", some "1234"⟩],
             [("alice", ⟨[⟨"squat", "Legs", "t0"⟩], []⟩)], [], []⟩)
          ⟨[⟨1, "alice", "t0", some "1234"⟩],
           [("alice", ⟨[⟨"squat", "Legs", "t0"⟩], []⟩)], [], []⟩).1.userDirs
      = some ⟨[⟨"squat", "Legs", "t0"⟩], []⟩ := by
  have h := C1_snapshot_roundtrip
    ⟨[⟨1, "alice", "t0", some "1234"⟩],
     [("alice", ⟨[⟨"squat", "Legs", "t0"⟩], []⟩)], [], []⟩ "t1"
  exact ⟨h.1, h.2 ⟨1, "alice", "t0", some "1234"⟩ (by decide)
    ⟨[⟨"squat", "Legs", "t0"⟩], []⟩ (by decide)⟩

theorem C2_restore_archived_witness :
    (restore_user "alice" "t9"
        ⟨[], [], [("alice_20240101_000000", ⟨[⟨"squat", "Legs", "t0"⟩], []⟩)], []⟩).2.1
      = true ∧
    (restore_user "alice" "t9"
        ⟨[], [], [("alice_20240101_000000", ⟨[⟨"squat", "Legs", "t0"⟩], []⟩)], []⟩).1.users
      = [⟨1, "alice", "t9", none⟩] ∧
    List.lookup "alice"
        (restore_user "alice" "t9"
          ⟨[], [], [("alice_20240101_000000",
              ⟨[⟨"squat", "Legs", "t0"⟩], []⟩)], []⟩).1.userDirs
      = some ⟨[⟨"squat", "Legs", "t0"⟩], []⟩ := by
  have h := C2_restore_archived
    ⟨[], [], [("alice_20240101_000000", ⟨[⟨"squat", "Legs", "t0"⟩], []⟩)], []⟩
    "alice" "t9" (by decide) (by decide)
  exact ⟨h.1, h.2.2.1, by
    have h4 := h.2.2.2.1
    rw [show maxStr (archivesFor "alice"
        ⟨[], [], [("alice_20240101_000000", ⟨[⟨"squat", "Legs", "t0"⟩], []⟩)], []⟩)
      = "alice_20240101_000000" from by decide] at h4
    exact h4⟩

theorem C3_restore_errors_witness :
    restore_user "alice" "t9" ⟨[], [], [], []⟩
      = (⟨[], [], [], []⟩, false, "No archive found for alice") ∧
    restore_user "bob" "t9"
        ⟨[⟨1, "bob", "t0", some "1234"⟩], [("bob", ⟨[], []⟩)],
         [("bob_20240101_000000", ⟨[], []⟩)], []⟩
      = (⟨[⟨1, "bob", "t0", some "1234"⟩], [("bob", ⟨[], []⟩)],
          [("bob_20240101_000000", ⟨[], []⟩)], []⟩, false,
         "User bob already exists") := by
  have h := C3_restore_errors ⟨[], [], [], []⟩
    ⟨[⟨1, "bob", "t0", some "1234"⟩], [("bob", ⟨[], []⟩)],
     [("bob_20240101_000000", ⟨[], []⟩)], []⟩
    "alice" "bob" "t9" "t9" (by decide) (by decide) (by decide)
  exact h

theorem C4_wrong_code_witness :
    delete_user "alice" "9999" "ts"
        ⟨[⟨1, "alice", "t0", some "1234"⟩], [("alice", ⟨[], []⟩)], [], []⟩
      = (⟨[⟨1, "alice", "t0", some "1234"⟩], [("alice", ⟨[], []⟩)], [], []⟩, false,
         "Incorrect protection code") := by
  exact C4_wrong_code
    ⟨[⟨1, "alice", "t0", some "1234"⟩], [("alice", ⟨[], []⟩)], [], []⟩
    "alice" "9999" "ts" ⟨1, "alice", "t0", some "1234"⟩
    (by decide) (by decide) (by decide)

theorem C5_duplicate_register_witness :
    save_user "alice" "5678" "t2"
        ⟨[⟨1, "alice", "t0", some "1234"⟩], [("alice", ⟨[], []⟩)], [], []⟩
      = (⟨[⟨1, "alice", "t0", some "1234"⟩], [("alice", ⟨[], []⟩)], [], []⟩, false,
         "User already exists") := by
  exact C5_duplicate_register
    ⟨[⟨1, "alice", "t0", some "1234"⟩], [("alice", ⟨[], []⟩)], [], []⟩
    "alice" "5678" "t2" (by decide)

theorem C6_upsert_twice_witness :
    save_exercise " bench press" "Back" "t2"
        (save_exercise "Bench  PRESS" "Chest" "t1" [])
      = [⟨"bench press", "Back", "t1"⟩] ∧
    ((save_exercise " bench press" "Back" "t2"
        (save_exercise "Bench  PRESS" "Chest" "t1" [])).filter
      (fun e => normalize_exercise_name e.name
          == normalize_exercise_name "Bench  PRESS")).length = 1 := by
  have h := C6_upsert_twice [] "Bench  PRESS" " bench press" "Chest" "Back" "t1" "t2"
    (by decide) (by simp)
  refine ⟨?_, h.2⟩
  rw [h.1]
  decide

theorem C7_last_workout_witness :
    get_last_workout "bench press" [⟨"2024-05-01", "squat", mkRat 60 1, 5⟩]
      = Except.ok none ∧
    ∃ w, get_last_workout "squat" [⟨"2024-05-01", "squat", mkRat 60 1, 5⟩]
        = Except.ok (some w) ∧ w ∈ [⟨"2024-05-01", "squat", mkRat 60 1, 5⟩]
        ∧ w.exercise = "squat" := by
  have h := C7_last_workout [⟨"2024-05-01", "squat", mkRat 60 1, 5⟩]
    [⟨"2024-05-01", "squat", mkRat 60 1, 5⟩] "bench press" "squat"
    (by decide) (by decide) (by decide) (by decide)
  obtain ⟨h1, h2⟩ := h
  obtain ⟨w, hw, hmem, hex, -⟩ := h2
  exact ⟨h1, w, hw, hmem, hex⟩

theorem C8_failed_import_witness :
    (import_from_csv [⟨"2024-01-01", "Bench Press", "60", "bad"⟩] "t1" [] []).2.2.1
      = false ∧
    (import_from_csv [⟨"2024-01-01", "Bench Press", "60", "bad"⟩] "t1" [] []).2.1
      = [] := by
  have h := C8_failed_import [⟨"2024-01-01", "Bench Press", "60", "bad"⟩] "t1" [] []
    (by decide)
  exact ⟨h.1, h.2.1⟩

theorem C9_active_users_have_files_witness :
    activeFilesInv (run [Op.reg "alice" "1111" "t1", Op.del "alice" "9999" "t2"]) := by
  apply C9_active_users_have_files
  intro op hop
  rcases List.mem_cons.mp hop with rfl | hop
  · trivial
  · rcases List.mem_cons.mp hop with rfl | hop
    · trivial
    · exact absurd hop (List.not_mem_nil op)

end FT
